/-
Verification of src/src/p7_scoredata.c (HMMER P7_SCOREDATA core).

Shallow embedding conventions:
  * C floats are modelled as exact rationals (ℚ) for the score-array code,
    and as exact reals (ℝ) for the window-weight code, whose closed-form
    length formula uses the C math library log.
  * Flat C arrays become functions ℕ → α; uninitialized memory is an
    explicit parameter function.
  * Inputs read from external collaborators (the P7_OPROFILE and P7_PROFILE
    structures, easel alphabet predicates) are parameters of the embedded
    functions: rsc j i models gm->rsc[j][i * p7P_NR + p7P_MSC], isRes
    models esl_abc_XIsResidue(om->abc, j), K models om->abc->Kp.
-/
import Mathlib

namespace Scoredata

/-! ## scoredata_GetSSVScoreArrays, float (p7_sd_fm) branch

Source lines 78-86: for i = 1..M, max_scores[i] starts at 0, and for each
alphabet symbol j = 0..K-1 that is a residue, ssv_scores_f[i*K+j] is set to
gm->rsc[j][i*p7P_NR + p7P_MSC] and max_scores[i] is raised to it when it is
larger. -/

/-- State of `max_scores[i]` after the inner loop of source lines 80-85 has
processed symbols `j = 0 .. n-1`: starts at 0, and for each residue symbol
the running maximum is raised to `rsc j i` when that score exceeds it. -/
def max_scores_loop (rsc : ℕ → ℕ → ℚ) (isRes : ℕ → Bool) (i : ℕ) : ℕ → ℚ
  | 0 => 0
  | n + 1 =>
    let m := max_scores_loop rsc isRes i n
    if isRes n then (if m < rsc n i then rsc n i else m) else m

/-- `max_scores[i]` after the full inner loop over the `K` alphabet symbols
(source lines 79-85). -/
def max_scores (K : ℕ) (rsc : ℕ → ℕ → ℚ) (isRes : ℕ → Bool) (i : ℕ) : ℚ :=
  max_scores_loop rsc isRes i K

/-! Source lines 96-110: for each interior position i = 1..M-1, the loop
`for (j=0; j<10 && i+j+1<=M; j++)` accumulates `sc_fwd += max_scores[i+j+1]`
into `opt_ext_fwd[i][j]` and `sc_rev += max_scores[M-i-j]` into
`opt_ext_rev[M-i][j]`; the fill loop (lines 107-110) then repeats the last
written value into the remaining slots up to j = 9.

The recursions below follow the loop: entry j+1 extends entry j by the next
per-position maximum exactly when the loop guard `i+(j+1)+1 <= M` still
holds, and otherwise repeats entry j (the fill loop). Entry 0 is
unconditionally `max_scores[i+1]` (resp. `max_scores[M-i]`) because the
guard holds at j = 0 for every interior i. For `opt_ext_rev` the row index
is p = M-i, under which the guard `i+j+1 <= M` reads `j+1 <= p` and the
summand `max_scores[M-i-j]` reads `max_scores[p-j]`. -/

/-- `opt_ext_fwd[i][j]`: score obtainable by extending `j+1` positions
forward from `i`, saturating at the model end `M` (source lines 96-110). -/
def opt_ext_fwd (M : ℕ) (maxs : ℕ → ℚ) (i : ℕ) : ℕ → ℚ
  | 0 => maxs (i + 1)
  | j + 1 =>
    if i + (j + 1) + 1 ≤ M then opt_ext_fwd M maxs i j + maxs (i + (j + 1) + 1)
    else opt_ext_fwd M maxs i j

/-- `opt_ext_rev[p][j]` for row `p = M-i`: score obtainable by extending
`j+1` positions backward from `p`, saturating at position 1
(source lines 96-110). -/
def opt_ext_rev (maxs : ℕ → ℚ) (p : ℕ) : ℕ → ℚ
  | 0 => maxs p
  | j + 1 =>
    if (j + 1) + 1 ≤ p then opt_ext_rev maxs p j + maxs (p - (j + 1))
    else opt_ext_rev maxs p j

/-! ### Lemmas about the per-position maxima and extension bounds -/

theorem max_scores_loop_nonneg (rsc : ℕ → ℕ → ℚ) (isRes : ℕ → Bool) (i n : ℕ) :
    0 ≤ max_scores_loop rsc isRes i n := by
  induction n with
  | zero => simp [max_scores_loop]
  | succ n ih =>
    simp only [max_scores_loop]
    split
    · split
      · exact le_of_lt (lt_of_le_of_lt ih (by assumption))
      · exact ih
    · exact ih

theorem max_scores_nonneg (K : ℕ) (rsc : ℕ → ℕ → ℚ) (isRes : ℕ → Bool) (i : ℕ) :
    0 ≤ max_scores K rsc isRes i :=
  max_scores_loop_nonneg rsc isRes i K

theorem max_scores_loop_zero_of_neg (rsc : ℕ → ℕ → ℚ) (isRes : ℕ → Bool) (i n : ℕ)
    (h : ∀ j < n, isRes j = true → rsc j i < 0) :
    max_scores_loop rsc isRes i n = 0 := by
  induction n with
  | zero => rfl
  | succ n ih =>
    have ih' := ih (fun j hj hr => h j (Nat.lt_succ_of_lt hj) hr)
    simp only [max_scores_loop, ih']
    split
    · have hneg : rsc n i < 0 := h n (Nat.lt_succ_self n) (by assumption)
      have : ¬ (0 : ℚ) < rsc n i := not_lt.mpr (le_of_lt hneg)
      simp [this]
    · rfl

theorem opt_ext_fwd_sum_range (M : ℕ) (maxs : ℕ → ℚ) (i k : ℕ) (hi : i < M) :
    opt_ext_fwd M maxs i k
      = ∑ j in Finset.range (min (k + 1) (M - i)), maxs (i + 1 + j) := by
  induction k with
  | zero =>
    have h1 : min 1 (M - i) = 1 := by omega
    simp [opt_ext_fwd, h1]
  | succ k ih =>
    simp only [opt_ext_fwd]
    split
    · have h1 : min (k + 1 + 1) (M - i) = (k + 1) + 1 := by omega
      have h2 : min (k + 1) (M - i) = k + 1 := by omega
      have hs := Finset.sum_range_succ (fun j => maxs (i + 1 + j)) (k + 1)
      rw [h1, hs, ih, h2]
      have harg : i + (k + 1) + 1 = i + 1 + (k + 1) := by omega
      rw [harg]
    · have h1 : min (k + 1 + 1) (M - i) = min (k + 1) (M - i) := by omega
      rw [h1, ih]

theorem opt_ext_rev_sum_range (maxs : ℕ → ℚ) (p k : ℕ) (hp : 1 ≤ p) :
    opt_ext_rev maxs p k
      = ∑ j in Finset.range (min (k + 1) p), maxs (p - j) := by
  induction k with
  | zero =>
    have h1 : min 1 p = 1 := by omega
    simp [opt_ext_rev, h1]
  | succ k ih =>
    simp only [opt_ext_rev]
    split
    · have h1 : min (k + 1 + 1) p = (k + 1) + 1 := by omega
      have h2 : min (k + 1) p = k + 1 := by omega
      have hs := Finset.sum_range_succ (fun j => maxs (p - j)) (k + 1)
      rw [h1, hs, ih, h2]
    · have h1 : min (k + 1 + 1) p = min (k + 1) p := by omega
      rw [h1, ih]

theorem opt_ext_fwd_le_succ (M : ℕ) (maxs : ℕ → ℚ) (hm : ∀ n, 0 ≤ maxs n) (i k : ℕ) :
    opt_ext_fwd M maxs i k ≤ opt_ext_fwd M maxs i (k + 1) := by
  show opt_ext_fwd M maxs i k ≤ opt_ext_fwd M maxs i (k + 1)
  simp only [opt_ext_fwd]
  split
  · exact le_add_of_nonneg_right (hm _)
  · exact le_refl _

theorem opt_ext_fwd_mono (M : ℕ) (maxs : ℕ → ℚ) (hm : ∀ n, 0 ≤ maxs n) (i k k' : ℕ)
    (h : k ≤ k') : opt_ext_fwd M maxs i k ≤ opt_ext_fwd M maxs i k' := by
  induction k' with
  | zero => simp_all
  | succ k' ih =>
    rcases Nat.lt_or_ge k (k' + 1) with hlt | hge
    · exact le_trans (ih (Nat.lt_succ_iff.mp hlt)) (opt_ext_fwd_le_succ M maxs hm i k')
    · have : k = k' + 1 := le_antisymm h hge
      subst this
      exact le_refl _

theorem opt_ext_rev_le_succ (maxs : ℕ → ℚ) (hm : ∀ n, 0 ≤ maxs n) (p k : ℕ) :
    opt_ext_rev maxs p k ≤ opt_ext_rev maxs p (k + 1) := by
  simp only [opt_ext_rev]
  split
  · exact le_add_of_nonneg_right (hm _)
  · exact le_refl _

theorem opt_ext_rev_mono (maxs : ℕ → ℚ) (hm : ∀ n, 0 ≤ maxs n) (p k k' : ℕ)
    (h : k ≤ k') : opt_ext_rev maxs p k ≤ opt_ext_rev maxs p k' := by
  induction k' with
  | zero => simp_all
  | succ k' ih =>
    rcases Nat.lt_or_ge k (k' + 1) with hlt | hge
    · exact le_trans (ih (Nat.lt_succ_iff.mp hlt)) (opt_ext_rev_le_succ maxs hm p k')
    · have : k = k' + 1 := le_antisymm h hge
      subst this
      exact le_refl _

theorem opt_ext_fwd_nonneg (M : ℕ) (maxs : ℕ → ℚ) (hm : ∀ n, 0 ≤ maxs n) (i k : ℕ) :
    0 ≤ opt_ext_fwd M maxs i k := by
  induction k with
  | zero => exact hm _
  | succ k ih =>
    simp only [opt_ext_fwd]
    split
    · exact add_nonneg ih (hm _)
    · exact ih

theorem opt_ext_rev_nonneg (maxs : ℕ → ℚ) (hm : ∀ n, 0 ≤ maxs n) (p k : ℕ) :
    0 ≤ opt_ext_rev maxs p k := by
  induction k with
  | zero => exact hm _
  | succ k ih =>
    simp only [opt_ext_rev]
    split
    · exact add_nonneg ih (hm _)
    · exact ih

/-- Conversion of the running-index form to the position-interval form used
by the specification: the `k`-th forward bound is the sum of the maxima over
positions `i+1 .. min (i+k+1) M`. -/
theorem opt_ext_fwd_sum_Icc (M : ℕ) (maxs : ℕ → ℚ) (i k : ℕ) (hi : i < M) :
    opt_ext_fwd M maxs i k = ∑ p in Finset.Icc (i + 1) (min (i + k + 1) M), maxs p := by
  rw [opt_ext_fwd_sum_range M maxs i k hi, ← Nat.Ico_succ_right,
    Finset.sum_Ico_eq_sum_range]
  have hcount : min (i + k + 1) M + 1 - (i + 1) = min (k + 1) (M - i) := by omega
  rw [hcount]

/-- The mirrored interval form for the reverse bound at row `p`: the sum of
the maxima over positions `max (p-k) 1 .. p`. -/
theorem opt_ext_rev_sum_Icc (maxs : ℕ → ℚ) (p k : ℕ) (hp : 1 ≤ p) :
    opt_ext_rev maxs p k = ∑ q in Finset.Icc (max (p - k) 1) p, maxs q := by
  rw [opt_ext_rev_sum_range maxs p k hp, ← Nat.Ico_succ_right,
    Finset.sum_Ico_eq_sum_range]
  have hcount : p + 1 - max (p - k) 1 = min (k + 1) p := by omega
  rw [hcount, ← Finset.sum_range_reflect]
  apply Finset.sum_congr rfl
  intro j hj
  simp only [Finset.mem_range] at hj
  congr 1
  omega

/-! ### Concrete fixtures used by the witnesses -/

/-- Sample match-emission scores: `rsc j i = i - j` (mix of signs). -/
def wrsc : ℕ → ℕ → ℚ := fun j i => (i : ℚ) - (j : ℚ)

/-- Sample residue predicate: symbols 0..2 are residues, symbol 3 is a
degeneracy code. -/
def wres : ℕ → Bool := fun j => decide (j < 3)

/-- Sample all-negative match-emission scores. -/
def nrsc : ℕ → ℕ → ℚ := fun _ _ => -1

/-- Residue predicate accepting every symbol. -/
def wresAll : ℕ → Bool := fun _ => true

/-! ## The float score table writes of scoredata_GetSSVScoreArrays

Source lines 78-86: for i = 1..M and each alphabet symbol j = 0..K-1 that is
a residue, `ssv_scores_f[i*K + j] = gm->rsc[j][i*p7P_NR + p7P_MSC]`. The
embedding threads the flat table (ℕ → ℚ) through both loops; the initial
table `t0` models the uninitialized allocation of line 75. The running
maximum computed by the same loop nest is embedded separately as
`max_scores` above; the two computations interact only through
`ssv_scores_f[i*K+j]`, which at the point of the maximum update has just
been set to `rsc j i`. -/

/-- Table state after the inner loop of lines 80-85 has processed symbols
`j = 0 .. n-1` of row `i`. -/
def fill_row (K : ℕ) (rsc : ℕ → ℕ → ℚ) (isRes : ℕ → Bool) (i : ℕ) :
    ℕ → (ℕ → ℚ) → (ℕ → ℚ)
  | 0, t => t
  | j + 1, t =>
    let t1 := fill_row K rsc isRes i j t
    if isRes j then Function.update t1 (i * K + j) (rsc j i) else t1

/-- Table state after the outer loop of lines 78-86 has processed rows
`i = 1 .. M` (each row runs the inner loop over all `K` symbols). -/
def ssv_scores_f (K : ℕ) (rsc : ℕ → ℕ → ℚ) (isRes : ℕ → Bool) :
    ℕ → (ℕ → ℚ) → (ℕ → ℚ)
  | 0, t0 => t0
  | i + 1, t0 => fill_row K rsc isRes (i + 1) K (ssv_scores_f K rsc isRes i t0)

/-- Flat row-major indices are injective while the column stays below `K`. -/
theorem flat_index_inj (K i i' j j' : ℕ) (hj : j < K) (hj' : j' < K)
    (h : i * K + j = i' * K + j') : i = i' ∧ j = j' := by
  have hK : 0 < K := lt_of_le_of_lt (Nat.zero_le j) hj
  have hmod : (i * K + j) % K = j % K := by
    rw [Nat.mul_comm, Nat.mul_add_mod]
  have hmod' : (i' * K + j') % K = j' % K := by
    rw [Nat.mul_comm, Nat.mul_add_mod]
  have hjj : j = j' := by
    rw [← Nat.mod_eq_of_lt hj, ← Nat.mod_eq_of_lt hj', ← hmod, ← hmod', h]
  constructor
  · have : i * K = i' * K := by omega
    exact Nat.eq_of_mul_eq_mul_right hK this
  · exact hjj

theorem fill_row_untouched (K : ℕ) (rsc : ℕ → ℕ → ℚ) (isRes : ℕ → Bool)
    (i n : ℕ) (t : ℕ → ℚ) (idx : ℕ) (h : ∀ j, j < n → idx ≠ i * K + j) :
    fill_row K rsc isRes i n t idx = t idx := by
  induction n with
  | zero => rfl
  | succ n ih =>
    have ih' := ih (fun j hj => h j (Nat.lt_succ_of_lt hj))
    simp only [fill_row]
    split
    · rw [Function.update_noteq (h n (Nat.lt_succ_self n))]
      exact ih'
    · exact ih'

theorem fill_row_written (K : ℕ) (rsc : ℕ → ℕ → ℚ) (isRes : ℕ → Bool)
    (i n j : ℕ) (t : ℕ → ℚ) (hj : j < n) (hres : isRes j = true) :
    fill_row K rsc isRes i n t (i * K + j) = rsc j i := by
  induction n with
  | zero => omega
  | succ n ih =>
    simp only [fill_row]
    rcases Nat.lt_or_ge j n with hlt | hge
    · split
      · have hne : i * K + j ≠ i * K + n := by omega
        rw [Function.update_noteq hne]
        exact ih hlt
      · exact ih hlt
    · have hjn : j = n := by omega
      subst hjn
      rw [hres]
      simp only [if_true]
      exact Function.update_same _ _ _

/-- C9: in float mode, for every position `i ∈ 1..M` and every true-residue
symbol `j`, the populated score-table entry `ssv_scores_f[i*K + j]` equals
exactly the match-emission score `rsc j i` looked up in the probabilistic
profile; entries of non-residue columns carry no contract. -/
theorem C9_float_score_table (K M i j : ℕ) (rsc : ℕ → ℕ → ℚ) (isRes : ℕ → Bool)
    (t0 : ℕ → ℚ) (hi1 : 1 ≤ i) (hiM : i ≤ M) (hj : j < K)
    (hres : isRes j = true) :
    ssv_scores_f K rsc isRes M t0 (i * K + j) = rsc j i := by
  induction M with
  | zero => omega
  | succ M ih =>
    simp only [ssv_scores_f]
    rcases Nat.lt_or_ge i (M + 1) with hlt | hge
    · have hrow : fill_row K rsc isRes (M + 1) K
          (ssv_scores_f K rsc isRes M t0) (i * K + j)
          = ssv_scores_f K rsc isRes M t0 (i * K + j) := by
        apply fill_row_untouched
        intro j' hj' heq
        have := flat_index_inj K i (M + 1) j j' hj hj' heq
        omega
      rw [hrow]
      exact ih (by omega)
    · have hiM1 : i = M + 1 := by omega
      subst hiM1
      exact fill_row_written K rsc isRes (M + 1) K j _ hj hres

/-- Witness for C9 at `K = 4`, `M = 3`, `i = 2`, residue symbol `j = 1`,
zero-initialized memory. -/
theorem C9_float_score_table_witness :
    (1 ≤ 2 ∧ 2 ≤ 3 ∧ 1 < 4 ∧ wres 1 = true) ∧
      ssv_scores_f 4 wrsc wres 3 (fun _ => 0) (2 * 4 + 1) = wrsc 1 2 :=
  ⟨⟨by decide, by decide, by decide, by decide⟩,
    C9_float_score_table 4 3 2 1 wrsc wres (fun _ => 0) (by decide) (by decide)
      (by decide) (by decide)⟩

/-! ### Claim theorems for the extension bounds -/

/-- C1: in float mode with extension bounds, for every model length `M ≥ 2`,
interior position `i ∈ 1..M-1` and `k ∈ 0..9`, `opt_ext_fwd[i][k]` equals
the cumulative sum of the per-position score maxima over positions
`i+1 .. i+k+1` clamped at the model end `M`; once `i+k+1` exceeds `M` the
slot repeats the last valid cumulative value (the one at index `M-i-1`),
and the row is non-decreasing across its 10 entries. -/
theorem C1_ext_fwd_bounds (K M i k : ℕ) (rsc : ℕ → ℕ → ℚ) (isRes : ℕ → Bool)
    (hM : 2 ≤ M) (hi1 : 1 ≤ i) (hiM : i ≤ M - 1) (hk : k < 10) :
    opt_ext_fwd M (max_scores K rsc isRes) i k
        = ∑ p in Finset.Icc (i + 1) (min (i + k + 1) M), max_scores K rsc isRes p
      ∧ (M < i + k + 1 →
          opt_ext_fwd M (max_scores K rsc isRes) i k
            = opt_ext_fwd M (max_scores K rsc isRes) i (M - i - 1))
      ∧ (∀ k1 k2, k1 ≤ k2 → k2 < 10 →
          opt_ext_fwd M (max_scores K rsc isRes) i k1
            ≤ opt_ext_fwd M (max_scores K rsc isRes) i k2) := by
  have hi : i < M := by omega
  refine ⟨opt_ext_fwd_sum_Icc M _ i k hi, ?_, ?_⟩
  · intro hsat
    rw [opt_ext_fwd_sum_range M _ i k hi, opt_ext_fwd_sum_range M _ i (M - i - 1) hi]
    have : min (k + 1) (M - i) = min (M - i - 1 + 1) (M - i) := by omega
    rw [this]
  · intro k1 k2 h12 _
    exact opt_ext_fwd_mono M _ (max_scores_nonneg K rsc isRes) i k1 k2 h12

/-- Witness for C1 at `K = 4`, `M = 5`, `i = 1`, `k = 3` on the sample
scores. -/
theorem C1_ext_fwd_bounds_witness :
    (2 ≤ 5 ∧ 1 ≤ 1 ∧ 1 ≤ 5 - 1 ∧ 3 < 10) ∧
      opt_ext_fwd 5 (max_scores 4 wrsc wres) 1 3
        = ∑ p in Finset.Icc 2 (min 5 5), max_scores 4 wrsc wres p :=
  ⟨⟨by decide, by decide, by decide, by decide⟩,
    (C1_ext_fwd_bounds 4 5 1 3 wrsc wres (by decide) (by decide) (by decide)
      (by decide)).1⟩

/-- C2: the reverse bounds mirror the forward ones: for every interior
position `i ∈ 1..M-1` and `k ∈ 0..9`, `opt_ext_rev[M-i][k]` is the cumulative
sum of the per-position score maxima accumulated backward from position
`M-i` (positions `M-i, M-i-1, ..., max (M-i-k) 1`), with the same saturating
fill of the 10-entry row and the same monotonicity. -/
theorem C2_ext_rev_bounds (K M i k : ℕ) (rsc : ℕ → ℕ → ℚ) (isRes : ℕ → Bool)
    (hM : 2 ≤ M) (hi1 : 1 ≤ i) (hiM : i ≤ M - 1) (hk : k < 10) :
    opt_ext_rev (max_scores K rsc isRes) (M - i) k
        = ∑ q in Finset.Icc (max (M - i - k) 1) (M - i), max_scores K rsc isRes q
      ∧ (M < i + k + 1 →
          opt_ext_rev (max_scores K rsc isRes) (M - i) k
            = opt_ext_rev (max_scores K rsc isRes) (M - i) (M - i - 1))
      ∧ (∀ k1 k2, k1 ≤ k2 → k2 < 10 →
          opt_ext_rev (max_scores K rsc isRes) (M - i) k1
            ≤ opt_ext_rev (max_scores K rsc isRes) (M - i) k2) := by
  have hp : 1 ≤ M - i := by omega
  refine ⟨opt_ext_rev_sum_Icc _ (M - i) k hp, ?_, ?_⟩
  · intro hsat
    rw [opt_ext_rev_sum_range _ (M - i) k hp,
      opt_ext_rev_sum_range _ (M - i) (M - i - 1) hp]
    have : min (k + 1) (M - i) = min (M - i - 1 + 1) (M - i) := by omega
    rw [this]
  · intro k1 k2 h12 _
    exact opt_ext_rev_mono _ (max_scores_nonneg K rsc isRes) (M - i) k1 k2 h12

/-- Witness for C2 at `K = 4`, `M = 5`, `i = 2`, `k = 9` on the sample
scores. -/
theorem C2_ext_rev_bounds_witness :
    (2 ≤ 5 ∧ 1 ≤ 2 ∧ 2 ≤ 5 - 1 ∧ 9 < 10) ∧
      opt_ext_rev (max_scores 4 wrsc wres) (5 - 2) 9
        = ∑ q in Finset.Icc (max (5 - 2 - 9) 1) (5 - 2), max_scores 4 wrsc wres q :=
  ⟨⟨by decide, by decide, by decide, by decide⟩,
    (C2_ext_rev_bounds 4 5 2 9 wrsc wres (by decide) (by decide) (by decide)
      (by decide)).1⟩

/-- C10: the per-position maximum tracked in float mode starts at 0 and is
only ever raised, so it is clamped below at 0; when every residue emission
score at a position is negative the tracked maximum is 0 (not the true
negative maximum); consequently every forward and reverse extension-bound
entry built from these maxima is nonnegative. -/
theorem C10_max_clamped_at_zero (K : ℕ) (rsc : ℕ → ℕ → ℚ) (isRes : ℕ → Bool) :
    (∀ i, 0 ≤ max_scores K rsc isRes i)
      ∧ (∀ i, (∀ j, j < K → isRes j = true → rsc j i < 0) →
          max_scores K rsc isRes i = 0)
      ∧ (∀ M i k, 0 ≤ opt_ext_fwd M (max_scores K rsc isRes) i k)
      ∧ (∀ p k, 0 ≤ opt_ext_rev (max_scores K rsc isRes) p k) := by
  refine ⟨max_scores_nonneg K rsc isRes, ?_, ?_, ?_⟩
  · intro i h
    exact max_scores_loop_zero_of_neg rsc isRes i K h
  · intro M i k
    exact opt_ext_fwd_nonneg M _ (max_scores_nonneg K rsc isRes) i k
  · intro p k
    exact opt_ext_rev_nonneg _ (max_scores_nonneg K rsc isRes) p k

/-- Witness for C10 at `K = 4` with all-negative emission scores: the
tracked maximum at position 1 is 0 and a sample extension bound is
nonnegative. -/
theorem C10_max_clamped_at_zero_witness :
    (∀ j, j < 4 → wresAll j = true → nrsc j 1 < 0)
      ∧ max_scores 4 nrsc wresAll 1 = 0
      ∧ 0 ≤ opt_ext_fwd 5 (max_scores 4 nrsc wresAll) 1 3 :=
  ⟨by decide,
    (C10_max_clamped_at_zero 4 nrsc wresAll).2.1 1 (by decide),
    (C10_max_clamped_at_zero 4 nrsc wresAll).2.2.1 5 1 3⟩

/-! ## scoredata_GetSSVScoreArrays, standard (p7_sd_std) branch

Source lines 68-71: with no probabilistic profile, the mode is p7_sd_std,
an `(M + 1) * K` byte buffer is allocated (line 70) and handed to
`p7_oprofile_GetSSVEmissionScoreArray` (line 71). -/

/-- Modelled from the spec: `p7_oprofile_GetSSVEmissionScoreArray` (an
operation of the Optimized Profile collaborator, declared outside src/)
fills the caller-provided buffer with the optimized profile's per-position
byte emission scores; `omBytes idx` is the byte score the profile reports
for flat index `idx`, and the filled extent is the caller's allocation. -/
def getSSVEmissionScoreArray (omBytes : ℕ → ℕ) (len : ℕ) (t0 : ℕ → ℕ) : ℕ → ℕ :=
  fun idx => if idx < len then omBytes idx else t0 idx

/-- The std-mode `ssv_scores` table: `(M + 1) * K` bytes (source line 70)
filled by the optimized profile (source line 71). -/
def ssv_scores_std (M K : ℕ) (omBytes : ℕ → ℕ) (t0 : ℕ → ℕ) : ℕ → ℕ :=
  getSSVEmissionScoreArray omBytes ((M + 1) * K) t0

/-- C8: in quantized mode the score table covers `(M+1) * K` byte entries,
and every entry for a position `i ∈ 1..M` and symbol `j < K` equals the
byte score reported by the Optimized Profile's emission-score fill
operation for that flat index. -/
theorem C8_std_score_table (M K i j : ℕ) (omBytes : ℕ → ℕ) (t0 : ℕ → ℕ)
    (hi1 : 1 ≤ i) (hiM : i ≤ M) (hj : j < K) :
    ssv_scores_std M K omBytes t0 (i * K + j) = omBytes (i * K + j) := by
  have hidx : i * K + j < (M + 1) * K := by
    calc i * K + j < i * K + K := by omega
    _ = (i + 1) * K := by ring
    _ ≤ (M + 1) * K := Nat.mul_le_mul_right K (by omega)
  simp [ssv_scores_std, getSSVEmissionScoreArray, hidx]

/-- Witness for C8 at `M = 3`, `K = 4`, `i = 1`, `j = 2`, with the identity
byte reporter and zero-initialized memory. -/
theorem C8_std_score_table_witness :
    (1 ≤ 1 ∧ 1 ≤ 3 ∧ 2 < 4) ∧
      ssv_scores_std 3 4 (fun idx => idx) (fun _ => 0) (1 * 4 + 2)
        = 1 * 4 + 2 :=
  ⟨⟨by decide, by decide, by decide⟩,
    C8_std_score_table 3 4 1 2 (fun idx => idx) (fun _ => 0) (by decide)
      (by decide) (by decide)⟩

/-! ## p7_hmm_ScoreDataComputeRest (source lines 315-363)

The transition probabilities `t_mis[i]` (match to insert) and `t_iis[i]`
(insert to insert) are filled in by `p7_oprofile_GetFwdTransitionArray`
(an Optimized Profile operation, outside src/); they are parameters of the
embedding, as is the configuration constant `p7_DEFAULT_WINDOW_BETA`
(called `beta` below). The C expression at line 343,
`2 + (int)(log(beta / t_mis[i]) / log(t_iis[i]))`, truncates the double
quotient toward zero (the C cast), then stores the small integer exactly
into a float. -/

/-- Truncation toward zero of a real number (the C double-to-int cast). -/
noncomputable def ctrunc (x : ℝ) : ℤ := if 0 ≤ x then ⌊x⌋ else ⌈x⌉

/-- Line 343: the raw per-position window length
`2 + (int)(log(beta / t_mi) / log(t_ii))`. -/
noncomputable def raw_len (beta tmi tii : ℝ) : ℝ :=
  ((2 + ctrunc (Real.log (beta / tmi) / Real.log tii) : ℤ) : ℝ)

/-- Lines 341-345: the running sum of the raw lengths over positions
`1 .. M-1`. -/
noncomputable def raw_sum (beta : ℝ) (tmis tiis : ℕ → ℝ) (M : ℕ) : ℝ :=
  ∑ i in Finset.Ico 1 M, raw_len beta (tmis i) (tiis i)

/-- The pre-cumulation prefix_lengths array: raw lengths written at
positions 1..M-1 (line 343), zeros at 0 and M (line 346), then the in-place
normalization by the sum (lines 349-350). Those three steps write each cell
at most once after its last read, so the array state before line 352 is this
function. Indices above M lie outside the `M+1`-cell allocation and are
never read; they are mapped to 0. -/
noncomputable def prefix_lengths_pre (beta : ℝ) (tmis tiis : ℕ → ℝ) (M i : ℕ) : ℝ :=
  if 1 ≤ i ∧ i < M then
    raw_len beta (tmis i) (tiis i) / raw_sum beta tmis tiis M
  else 0

/-- One iteration of the loop at lines 353-354: cell `i` receives
`s[i+1] + p[i-1]`. -/
noncomputable def suffix_step (p s : ℕ → ℝ) (i : ℕ) : ℕ → ℝ :=
  Function.update s i (s (i + 1) + p (i - 1))

/-- State of the suffix_lengths array after line 352 (`s[M] = p[M-1]`) and
`c` iterations of the descending loop at lines 353-354 (iteration number
`c` writes cell `M - c`); `s0` is the uninitialized allocation of
line 338. -/
noncomputable def suffix_loop (p : ℕ → ℝ) (M : ℕ) (s0 : ℕ → ℝ) : ℕ → (ℕ → ℝ)
  | 0 => Function.update s0 M (p (M - 1))
  | c + 1 => suffix_step p (suffix_loop p M s0 c) (M - (c + 1))

/-- The final suffix_lengths array: the loop at lines 353-354 runs for
`i = M-1` down to `1`, i.e. `M - 1` iterations. -/
noncomputable def suffix_lengths (p : ℕ → ℝ) (M : ℕ) (s0 : ℕ → ℝ) : ℕ → ℝ :=
  suffix_loop p M s0 (M - 1)

/-- One iteration of the cumulation loop at lines 355-356: cell `i`
receives `t[i] + t[i-1]`. -/
noncomputable def cum_step (t : ℕ → ℝ) (i : ℕ) : ℕ → ℝ :=
  Function.update t i (t i + t (i - 1))

/-- State of prefix_lengths after `c` iterations of the ascending loop at
lines 355-356 (iteration number `c` writes cell `c + 1`, so stage `c` has
processed `i = 2 .. c + 1`). -/
noncomputable def cum_loop (p : ℕ → ℝ) : ℕ → (ℕ → ℝ)
  | 0 => p
  | c + 1 => cum_step (cum_loop p c) (c + 2)

/-- The final prefix_lengths array: the cumulation loop runs for
`i = 2 .. M-1`, i.e. `M - 2` iterations. -/
noncomputable def prefix_lengths_post (beta : ℝ) (tmis tiis : ℕ → ℝ) (M : ℕ) : ℕ → ℝ :=
  cum_loop (prefix_lengths_pre beta tmis tiis M) (M - 2)

/-! ### Loop invariants for the suffix and cumulation loops -/

/-- Cells at or above `M - c` are unchanged by loop iterations after
stage `c` (iteration `e + 1` writes cell `M - (e+1)`, strictly below
`M - c` once `e ≥ c`). -/
theorem suffix_loop_stable (p : ℕ → ℝ) (M : ℕ) (s0 : ℕ → ℝ) (c : ℕ) :
    ∀ d, c ≤ d → d < M → ∀ idx, M - c ≤ idx →
      suffix_loop p M s0 d idx = suffix_loop p M s0 c idx := by
  intro d
  induction d with
  | zero =>
    intro h1 _ idx _
    have : c = 0 := Nat.le_zero.mp h1
    subst this
    rfl
  | succ d ih =>
    intro h1 h2 idx h3
    rcases Nat.lt_or_ge c (d + 1) with hlt | hge
    · have hne : idx ≠ M - (d + 1) := by omega
      simp only [suffix_loop, suffix_step]
      rw [Function.update_noteq hne]
      exact ih (by omega) (by omega) idx h3
    · have hc : c = d + 1 := by omega
      subst hc
      rfl

/-- Cell `M` of the finished suffix array holds `p (M - 1)`
(line 352, untouched by the descending loop). -/
theorem suffix_lengths_at_M (p : ℕ → ℝ) (M : ℕ) (s0 : ℕ → ℝ) (hM : 1 ≤ M) :
    suffix_lengths p M s0 M = p (M - 1) := by
  unfold suffix_lengths
  rw [suffix_loop_stable p M s0 0 (M - 1) (by omega) (by omega) M (by omega)]
  simp [suffix_loop]

/-- The finished suffix array satisfies the descending recurrence of
lines 353-354, with `p` the pre-cumulation prefix array. -/
theorem suffix_lengths_rec (p : ℕ → ℝ) (M : ℕ) (s0 : ℕ → ℝ) (i : ℕ)
    (hM : 2 ≤ M) (hi1 : 1 ≤ i) (hiM : i ≤ M - 1) :
    suffix_lengths p M s0 i = suffix_lengths p M s0 (i + 1) + p (i - 1) := by
  unfold suffix_lengths
  have h1 : suffix_loop p M s0 (M - 1) i = suffix_loop p M s0 ((M - i - 1) + 1) i := by
    have he : (M - i - 1) + 1 = M - i := by omega
    rw [he]
    exact suffix_loop_stable p M s0 (M - i) (M - 1) (by omega) (by omega) i (by omega)
  have h2 : suffix_loop p M s0 (M - 1) (i + 1)
      = suffix_loop p M s0 (M - i - 1) (i + 1) :=
    suffix_loop_stable p M s0 (M - i - 1) (M - 1) (by omega) (by omega) (i + 1)
      (by omega)
  rw [h1, h2]
  simp only [suffix_loop, suffix_step]
  have hMc : M - ((M - i - 1) + 1) = i := by omega
  rw [hMc, Function.update_same]

/-- Cells outside `2 .. c+1` are unchanged by the first `c` cumulation
iterations. -/
theorem cum_loop_untouched (p : ℕ → ℝ) : ∀ c idx, idx < 2 ∨ c + 1 < idx →
    cum_loop p c idx = p idx := by
  intro c
  induction c with
  | zero => intro idx _; rfl
  | succ c ih =>
    intro idx h
    simp only [cum_loop, cum_step]
    rw [Function.update_noteq (by omega)]
    exact ih idx (by omega)

/-- After `c` cumulation iterations, every cell `1 ≤ idx ≤ c+1` holds the
running sum of the pre-cumulation values `p 1 + ... + p idx`. -/
theorem cum_loop_values (p : ℕ → ℝ) : ∀ c idx, 1 ≤ idx → idx ≤ c + 1 →
    cum_loop p c idx = ∑ j in Finset.Icc 1 idx, p j := by
  intro c
  induction c with
  | zero =>
    intro idx h1 h2
    have : idx = 1 := by omega
    subst this
    simp [cum_loop]
  | succ c ih =>
    intro idx h1 h2
    simp only [cum_loop, cum_step]
    rcases Nat.lt_or_ge idx (c + 2) with hlt | hge
    · rw [Function.update_noteq (by omega)]
      exact ih idx h1 (by omega)
    · have hidx : idx = c + 2 := by omega
      subst hidx
      rw [Function.update_same]
      have hu : cum_loop p c (c + 2) = p (c + 2) :=
        cum_loop_untouched p c (c + 2) (by omega)
      have hv : cum_loop p c (c + 2 - 1) = ∑ j in Finset.Icc 1 (c + 1), p j := by
        have he : c + 2 - 1 = c + 1 := by omega
        rw [he]
        exact ih (c + 1) (by omega) (by omega)
      rw [hu, hv, Finset.sum_Icc_succ_top (by omega : 1 ≤ c + 2)]
      ring

/-! ### Bounds on the raw window lengths -/

theorem raw_len_ge_two (beta tmi tii : ℝ) (hb : 0 < beta) (hbm : beta ≤ tmi)
    (h0 : 0 < tii) (h1 : tii < 1) : (2 : ℝ) ≤ raw_len beta tmi tii := by
  have htmi : 0 < tmi := lt_of_lt_of_le hb hbm
  have hlog1 : Real.log (beta / tmi) ≤ 0 := by
    apply Real.log_nonpos
    · positivity
    · rw [div_le_one htmi]
      exact hbm
  have hlog2 : Real.log tii < 0 := Real.log_neg h0 h1
  have hq : 0 ≤ Real.log (beta / tmi) / Real.log tii := by
    have hpos : 0 ≤ (-(Real.log (beta / tmi))) / (-(Real.log tii)) :=
      div_nonneg (by linarith) (by linarith)
    rwa [neg_div_neg_eq] at hpos
  have hfloor : (0 : ℤ) ≤ ⌊Real.log (beta / tmi) / Real.log tii⌋ :=
    Int.floor_nonneg.mpr hq
  unfold raw_len ctrunc
  rw [if_pos hq]
  have h2 : (2 : ℤ) ≤ 2 + ⌊Real.log (beta / tmi) / Real.log tii⌋ := by omega
  exact_mod_cast h2

theorem raw_sum_pos (beta : ℝ) (tmis tiis : ℕ → ℝ) (M : ℕ) (hM : 2 ≤ M)
    (hb : 0 < beta)
    (ht : ∀ i, 1 ≤ i → i < M → beta ≤ tmis i ∧ 0 < tiis i ∧ tiis i < 1) :
    0 < raw_sum beta tmis tiis M := by
  unfold raw_sum
  apply Finset.sum_pos
  · intro i hi
    simp only [Finset.mem_Ico] at hi
    obtain ⟨h1, h2, h3⟩ := ht i hi.1 hi.2
    have := raw_len_ge_two beta (tmis i) (tiis i) hb h1 h2 h3
    linarith
  · exact ⟨1, by simp [Finset.mem_Ico]; omega⟩

theorem prefix_lengths_pre_nonneg (beta : ℝ) (tmis tiis : ℕ → ℝ) (M : ℕ)
    (hM : 2 ≤ M) (hb : 0 < beta)
    (ht : ∀ i, 1 ≤ i → i < M → beta ≤ tmis i ∧ 0 < tiis i ∧ tiis i < 1) (i : ℕ) :
    0 ≤ prefix_lengths_pre beta tmis tiis M i := by
  unfold prefix_lengths_pre
  split
  · rename_i h
    obtain ⟨h1, h2, h3⟩ := ht i h.1 h.2
    apply div_nonneg
    · have := raw_len_ge_two beta (tmis i) (tiis i) hb h1 h2 h3
      linarith
    · exact le_of_lt (raw_sum_pos beta tmis tiis M hM hb ht)
  · exact le_refl 0

/-! ### Claim theorems for the window-weight phase -/

/-- C3: after p7_hmm_ScoreDataComputeRest succeeds, `suffix_lengths[M]`
equals `w[M-1]` and, for every `i` from `M-1` down to `1`,
`suffix_lengths[i] = suffix_lengths[i+1] + w[i-1]`, where `w` is the
pre-cumulation normalized prefix array: the suffix array is built entirely
from the pre-cumulation values of prefix_lengths, before the in-place
cumulative-sum conversion for `i = 2..M-1` runs. -/
theorem C3_suffix_built_before_cumulation (M : ℕ) (beta : ℝ)
    (tmis tiis s0 : ℕ → ℝ) (hM : 2 ≤ M) :
    suffix_lengths (prefix_lengths_pre beta tmis tiis M) M s0 M
        = prefix_lengths_pre beta tmis tiis M (M - 1)
      ∧ ∀ i, 1 ≤ i → i ≤ M - 1 →
          suffix_lengths (prefix_lengths_pre beta tmis tiis M) M s0 i
            = suffix_lengths (prefix_lengths_pre beta tmis tiis M) M s0 (i + 1)
              + prefix_lengths_pre beta tmis tiis M (i - 1) :=
  ⟨suffix_lengths_at_M _ M s0 (by omega),
    fun i h1 h2 => suffix_lengths_rec _ M s0 i hM h1 h2⟩

/-- Witness for C3 at `M = 3`, `beta = 1`, constant transition data,
zero-initialized memory. -/
theorem C3_suffix_built_before_cumulation_witness :
    (2 ≤ 3) ∧
      suffix_lengths (prefix_lengths_pre 1 (fun _ => 1) (fun _ => 1 / 2) 3) 3
          (fun _ => 0) 3
        = prefix_lengths_pre 1 (fun _ => 1) (fun _ => 1 / 2) 3 (3 - 1) :=
  ⟨by decide,
    (C3_suffix_built_before_cumulation 3 1 (fun _ => 1) (fun _ => 1 / 2)
      (fun _ => 0) (by decide)).1⟩

/-- C4: after p7_hmm_ScoreDataComputeRest succeeds (transition data in
range, model length at least 2): the final prefix array is 0 at positions 0
and M; the pre-cumulation normalized weights over positions 1..M-1 sum to
exactly 1 (the floating-point statement up to tolerance); after the
in-place cumulation the prefix array is non-decreasing over i = 2..M-1; and
`suffix_lengths[M]` equals the pre-cumulation weight at position M-1. -/
theorem C4_window_weight_invariants (M : ℕ) (beta : ℝ) (tmis tiis s0 : ℕ → ℝ)
    (hM : 2 ≤ M) (hb : 0 < beta)
    (ht : ∀ i, 1 ≤ i → i < M → beta ≤ tmis i ∧ 0 < tiis i ∧ tiis i < 1) :
    prefix_lengths_post beta tmis tiis M 0 = 0
      ∧ prefix_lengths_post beta tmis tiis M M = 0
      ∧ (∑ i in Finset.Ico 1 M, prefix_lengths_pre beta tmis tiis M i) = 1
      ∧ (∀ i, 2 ≤ i → i ≤ M - 1 →
          prefix_lengths_post beta tmis tiis M (i - 1)
            ≤ prefix_lengths_post beta tmis tiis M i)
      ∧ suffix_lengths (prefix_lengths_pre beta tmis tiis M) M s0 M
          = prefix_lengths_pre beta tmis tiis M (M - 1) := by
  have hpos := raw_sum_pos beta tmis tiis M hM hb ht
  refine ⟨?_, ?_, ?_, ?_, suffix_lengths_at_M _ M s0 (by omega)⟩
  · unfold prefix_lengths_post
    rw [cum_loop_untouched _ _ 0 (Or.inl (by omega))]
    simp [prefix_lengths_pre]
  · unfold prefix_lengths_post
    rw [cum_loop_untouched _ _ M (Or.inr (by omega))]
    simp [prefix_lengths_pre]
  · have hcongr : ∀ i ∈ Finset.Ico 1 M, prefix_lengths_pre beta tmis tiis M i
        = raw_len beta (tmis i) (tiis i) / raw_sum beta tmis tiis M := by
      intro i hi
      simp only [Finset.mem_Ico] at hi
      unfold prefix_lengths_pre
      rw [if_pos ⟨hi.1, hi.2⟩]
    rw [Finset.sum_congr rfl hcongr, ← Finset.sum_div]
    have hnum : (∑ i in Finset.Ico 1 M, raw_len beta (tmis i) (tiis i))
        = raw_sum beta tmis tiis M := rfl
    rw [hnum, div_self (ne_of_gt hpos)]
  · intro i h2 hiM1
    unfold prefix_lengths_post
    rw [cum_loop_values _ (M - 2) i (by omega) (by omega),
      cum_loop_values _ (M - 2) (i - 1) (by omega) (by omega)]
    apply Finset.sum_le_sum_of_subset_of_nonneg
    · intro x hx
      simp only [Finset.mem_Icc] at hx ⊢
      omega
    · intro j _ _
      exact prefix_lengths_pre_nonneg beta tmis tiis M hM hb ht j

/-- Witness for C4 at `M = 3`, `beta = 1`, `t_mi = 1`, `t_ii = 1/2`. -/
theorem C4_window_weight_invariants_witness :
    (2 ≤ 3 ∧ (0 : ℝ) < 1
        ∧ ∀ i, 1 ≤ i → i < 3 →
            (1 : ℝ) ≤ (fun (_ : ℕ) => (1 : ℝ)) i
              ∧ (0 : ℝ) < (fun (_ : ℕ) => (1 : ℝ) / 2) i
              ∧ (fun (_ : ℕ) => (1 : ℝ) / 2) i < 1)
      ∧ prefix_lengths_post 1 (fun _ => 1) (fun _ => 1 / 2) 3 0 = 0 :=
  ⟨⟨by decide, by norm_num, fun i _ _ => ⟨le_refl 1, by norm_num, by norm_num⟩⟩,
    (C4_window_weight_invariants 3 1 (fun _ => 1) (fun _ => 1 / 2) (fun _ => 0)
      (by decide) (by norm_num)
      (fun i _ _ => ⟨le_refl 1, by norm_num, by norm_num⟩)).1⟩

/-! ## p7_hmm_ScoreDataClone (source lines 221-290) -/

/-- Populated extent of the `fwd_scores` table: p7_hmm_ScoreDataComputeRest
allocates and fills `Kp * (M + 1)` floats (source lines 324-325). -/
def fwd_scores_len (M Kp : ℕ) : ℕ := Kp * (M + 1)

/-- Source lines 258-261: the clone of `fwd_scores` allocates `src->M + 1`
floats and memcpy-copies `src->M + 1` floats from the source (the factor
`Kp` used for the score tables at lines 242-246 is missing here); entries
past the copied extent keep the allocation's uninitialized contents
`uninit`. -/
def clone_fwd_scores (M : ℕ) (srcFwd uninit : ℕ → ℚ) : ℕ → ℚ :=
  fun idx => if idx < M + 1 then srcFwd idx else uninit idx

/-- C5: the claim says p7_hmm_ScoreDataClone deep-copies every populated
field value-equally, but the `fwd_scores` branch copies only `M + 1` of the
`Kp * (M + 1)` populated floats: at `M = 1`, `Kp = 2`, with source table
`idx ↦ idx` and zeroed fresh memory, the clone differs from the source
inside the populated extent (flat index 2). This exhibits the code bug at
source lines 258-261 (`(src->M+1)` where the allocation of line 324 uses
`Kp * (M+1)`). -/
theorem C5_clone_fwd_scores_not_deep_copy :
    2 < fwd_scores_len 1 2
      ∧ clone_fwd_scores 1 (fun idx => (idx : ℚ)) (fun _ => 0) 2 ≠ (2 : ℚ) := by
  constructor
  · decide
  · show (if 2 < 1 + 1 then ((2 : ℕ) : ℚ) else 0) ≠ 2
    norm_num

/-! ## Allocation-failure behaviour of p7_hmm_ScoreDataCreate
(source lines 176-200 together with 58-118)

ESL_ALLOC jumps to the enclosing ERROR label as soon as one allocation
fails. An allocation oracle `alloc : ℕ → Bool` records whether the n-th
allocation request made during the operation succeeds. -/

inductive EslStatus
  | ok
  | emem
deriving DecidableEq

/-- Number of allocations scoredata_GetSSVScoreArrays requests: one in std
mode (line 70); in fm mode the table and max_scores (lines 75-76), the two
spines (lines 89-90) and `2 * (M - 1)` rows (lines 92-95). -/
def getSSV_allocs (fm : Bool) (M : ℕ) : ℕ :=
  if fm then 4 + 2 * (M - 1) else 1

/-- Return status of scoredata_GetSSVScoreArrays: eslOK when every
allocation it requests succeeds, otherwise eslEMEM via the ERROR label
(source lines 114-117). -/
def getSSVScoreArrays_status (alloc : ℕ → Bool) (fm : Bool) (M : ℕ) : EslStatus :=
  if (List.range (getSSV_allocs fm M)).all (fun n => alloc n) then .ok else .emem

/-- Source lines 176-200: p7_hmm_ScoreDataCreate allocates the struct
(line 182, allocation number 0 of the oracle), NULLs the fields, calls
scoredata_GetSSVScoreArrays (line 193) without checking its return status,
and returns the buffer (line 195); only a failure of the struct allocation
itself reaches the ERROR label and returns NULL. The result records the
returned pointer (`some` = non-NULL buffer) together with the status the
score-array phase reported. -/
def scoreDataCreate (alloc : ℕ → Bool) (fm : Bool) (M : ℕ) : Option EslStatus :=
  if alloc 0 = true then
    some (getSSVScoreArrays_status (fun n => alloc (n + 1)) fm M)
  else none

/-- C7: the claim (and the function's own documentation, source line 174:
Throws NULL on allocation failure) says any allocation failure during
creation makes p7_hmm_ScoreDataCreate return NULL; but with an oracle under
which the struct allocation succeeds and the first allocation inside
scoredata_GetSSVScoreArrays fails (fm mode, M = 2), the score-array phase
reports eslEMEM yet Create still returns a non-NULL, partially built
buffer; with an all-succeeding oracle it returns a non-NULL buffer with
status eslOK. -/
theorem C7_create_returns_partial_buffer_on_inner_failure :
    getSSVScoreArrays_status (fun n => decide (n + 1 = 0)) true 2 = .emem
      ∧ scoreDataCreate (fun n => decide (n = 0)) true 2 ≠ none
      ∧ scoreDataCreate (fun _ => true) true 2 = some .ok := by
  decide

/-! ## p7_hmm_ScoreDataDestroy (source lines 125-156)

The struct declaration (hmmer.h) is not under src/. Modelled from the
spec: exactly one of the two score tables is populated, selected by the
mode tag (mutually exclusive storage modes), so the single owned
score-table buffer of either mode is the one released by the
`free(data->ssv_scores)` of line 132. `nTrans` is the fixed enumerated
transition-category count p7O_NTRANS (declared outside src/); the shape
record carries the model length and which optional fields are present. -/

structure SDShape where
  M : ℕ
  hasPrefixLengths : Bool
  hasSuffixLengths : Bool
  hasFwdScores : Bool
  hasFwdTransitions : Bool
  hasOptExtFwd : Bool
  hasOptExtRev : Bool

/-- Number of heap blocks owned by a buffer of the given shape: the struct
itself; the mode-selected score table; one block for each present simple
array; a spine plus `nTrans` rows when fwd_transitions is present
(allocated at lines 328-331); and a spine plus `M - 1` interior-position
rows for each present ragged extension structure (allocated at
lines 89-95, or lines 264-277 in a clone). -/
def ownedBuffers (nTrans : ℕ) (d : SDShape) : ℕ :=
  1 + 1
    + (if d.hasPrefixLengths then 1 else 0)
    + (if d.hasSuffixLengths then 1 else 0)
    + (if d.hasFwdScores then 1 else 0)
    + (if d.hasFwdTransitions then 1 + nTrans else 0)
    + (if d.hasOptExtFwd then 1 + (d.M - 1) else 0)
    + (if d.hasOptExtRev then 1 + (d.M - 1) else 0)

/-- Number of free() calls p7_hmm_ScoreDataDestroy performs: none on a
NULL argument (line 130); otherwise one per non-NULL simple field
(lines 132-135, line 132 releasing the mode-selected score table), the
`nTrans` rows plus spine of fwd_transitions (lines 137-141), the rows
`i = 1 .. M-1` plus spine of each present ragged extension structure
(lines 142-151), and the struct itself (line 153). -/
def destroyFrees (nTrans : ℕ) : Option SDShape → ℕ
  | none => 0
  | some d =>
      (if d.hasPrefixLengths then 1 else 0)
        + (if d.hasSuffixLengths then 1 else 0)
        + (if d.hasFwdScores then 1 else 0)
        + (if d.hasFwdTransitions then nTrans + 1 else 0)
        + (if d.hasOptExtFwd then (d.M - 1) + 1 else 0)
        + (if d.hasOptExtRev then (d.M - 1) + 1 else 0)
        + 1 + 1

/-- C6: for every buffer shape reachable through create / computeRest /
clone — any mode and any subset of optional fields present — the number of
blocks p7_hmm_ScoreDataDestroy frees equals the number of blocks the buffer
owns (the row-by-row loops over the ragged structures and the transition
rows cover exactly the allocated rows), and destroying a NULL buffer frees
nothing. -/
theorem C6_destroy_releases_every_owned_buffer (nTrans : ℕ) (d : SDShape) :
    destroyFrees nTrans (some d) = ownedBuffers nTrans d
      ∧ destroyFrees nTrans none = 0 := by
  obtain ⟨M, hp, hs, hf, hft, hef, her⟩ := d
  refine ⟨?_, rfl⟩
  simp only [destroyFrees, ownedBuffers]
  cases hp <;> cases hs <;> cases hf <;> cases hft <;> cases hef <;> cases her <;>
    simp <;> omega

end Scoredata
